import Mathlib

/-! Verification of the reddit2eink rendering pipeline (src/main.rs).

Strings are modelled as lists of characters (`List Char`).  Rust's
`String::replace` is embedded as `listReplace`, a fuel-indexed structural
recursion performing leftmost, non-overlapping pattern replacement exactly
as Rust does for non-empty patterns.  External collaborators of the
program — the roux API client, the file system, the shell_words tokenizer
and the ebook-convert subprocess — are modelled as environment-supplied
results; everything the repository itself computes is translated directly
from the source. -/

/-- Boolean test that `p` occurs at the start of `s`. -/
def startsWithB : List Char → List Char → Bool
  | [], _ => true
  | _ :: _, [] => false
  | p :: ps, c :: cs => p == c && startsWithB ps cs

/-- Boolean test that `pat` occurs somewhere inside `s` (as a contiguous block). -/
def containsB (pat : List Char) : List Char → Bool
  | [] => startsWithB pat []
  | c :: rest => startsWithB pat (c :: rest) || containsB pat rest

/-- Propositional form: `p` is an initial segment of `s`. -/
def IsStart (p s : List Char) : Prop := ∃ t, s = p ++ t

/-- Propositional form: `p` occurs contiguously inside `s`. -/
def IsPart (p s : List Char) : Prop := ∃ u v, s = u ++ (p ++ v)

lemma startsWithB_iff : ∀ (p s : List Char), startsWithB p s = true ↔ IsStart p s := by
  intro p
  induction p with
  | nil => intro s; simp [startsWithB, IsStart]
  | cons a ps ih =>
    intro s
    cases s with
    | nil =>
      simp only [startsWithB, IsStart]
      constructor
      · intro h; exact absurd h (by simp)
      · rintro ⟨t, ht⟩; exact absurd ht (by simp)
    | cons c cs =>
      simp only [startsWithB, Bool.and_eq_true, beq_iff_eq, ih, IsStart]
      constructor
      · rintro ⟨rfl, t, rfl⟩
        exact ⟨t, rfl⟩
      · rintro ⟨t, h⟩
        rw [List.cons_append] at h
        injection h with h1 h2
        exact ⟨h1.symm, t, h2⟩

lemma containsB_iff : ∀ (s pat : List Char), containsB pat s = true ↔ IsPart pat s := by
  intro s
  induction s with
  | nil =>
    intro pat
    rw [containsB, startsWithB_iff]
    constructor
    · rintro ⟨t, h⟩; exact ⟨[], t, h⟩
    · rintro ⟨u, v, h⟩
      have h' : u ++ (pat ++ v) = [] := h.symm
      rw [List.append_eq_nil] at h'
      obtain ⟨hu, h2⟩ := h'
      rw [List.append_eq_nil] at h2
      exact ⟨v, by simp [h2.1, h2.2]⟩
  | cons c rest ih =>
    intro pat
    rw [containsB, Bool.or_eq_true, startsWithB_iff, ih]
    constructor
    · rintro (⟨t, h⟩ | ⟨u, v, h⟩)
      · exact ⟨[], t, by simpa using h⟩
      · exact ⟨c :: u, v, by rw [List.cons_append, ← h]⟩
    · rintro ⟨u, v, h⟩
      cases u with
      | nil => exact Or.inl ⟨v, by simpa using h⟩
      | cons x u' =>
        rw [List.cons_append] at h
        injection h with h1 h2
        exact Or.inr ⟨u', v, h2⟩

lemma containsB_false_iff (s pat : List Char) : containsB pat s = false ↔ ¬ IsPart pat s := by
  rw [← containsB_iff, Bool.eq_false_iff]

/-- Fuel-indexed core of Rust `String::replace`: scans left to right, on a
match of `pat` emits `repl` and skips past the match (non-overlapping). -/
def listReplaceGo (pat repl : List Char) : Nat → List Char → List Char
  | _, [] => []
  | 0, s => s
  | fuel + 1, c :: rest =>
    if startsWithB pat (c :: rest) && !pat.isEmpty then
      repl ++ listReplaceGo pat repl fuel ((c :: rest).drop pat.length)
    else
      c :: listReplaceGo pat repl fuel rest

/-- Embedding of Rust `s.replace(pat, repl)` for non-empty `pat` (both uses in
the source have a fixed non-empty pattern). -/
def listReplace (pat repl s : List Char) : List Char := listReplaceGo pat repl s.length s

lemma pat_length_pos_of_cond {pat : List Char} {s : List Char}
    (hc : (startsWithB pat s && !pat.isEmpty) = true) : 0 < pat.length := by
  rcases pat with _ | ⟨p, ps⟩
  · simp at hc
  · simp

lemma listReplaceGo_congr (pat repl : List Char) :
    ∀ f₁ f₂ s, s.length ≤ f₁ → s.length ≤ f₂ →
      listReplaceGo pat repl f₁ s = listReplaceGo pat repl f₂ s := by
  intro f₁
  induction f₁ with
  | zero =>
    intro f₂ s h1 _
    have hs : s = [] := List.eq_nil_of_length_eq_zero (Nat.le_zero.mp h1)
    subst hs
    cases f₂ <;> rfl
  | succ g ihg =>
    intro f₂ s h1 h2
    cases s with
    | nil => cases f₂ <;> rfl
    | cons c rest =>
      cases f₂ with
      | zero => exact absurd h2 (by simp)
      | succ g₂ =>
        show (if startsWithB pat (c :: rest) && !pat.isEmpty then
                repl ++ listReplaceGo pat repl g ((c :: rest).drop pat.length)
              else c :: listReplaceGo pat repl g rest) =
             (if startsWithB pat (c :: rest) && !pat.isEmpty then
                repl ++ listReplaceGo pat repl g₂ ((c :: rest).drop pat.length)
              else c :: listReplaceGo pat repl g₂ rest)
        simp only [List.length_cons] at h1 h2
        by_cases hc : (startsWithB pat (c :: rest) && !pat.isEmpty) = true
        · rw [if_pos hc, if_pos hc]
          have hp := pat_length_pos_of_cond hc
          congr 1
          apply ihg <;> (rw [List.length_drop, List.length_cons]; omega)
        · rw [if_neg hc, if_neg hc]
          congr 1
          apply ihg <;> omega

lemma listReplace_nil (pat repl : List Char) : listReplace pat repl [] = [] := rfl

lemma listReplace_cons (pat repl : List Char) (c : Char) (rest : List Char) :
    listReplace pat repl (c :: rest) =
      if startsWithB pat (c :: rest) && !pat.isEmpty then
        repl ++ listReplace pat repl ((c :: rest).drop pat.length)
      else
        c :: listReplace pat repl rest := by
  show (if startsWithB pat (c :: rest) && !pat.isEmpty then
          repl ++ listReplaceGo pat repl rest.length ((c :: rest).drop pat.length)
        else c :: listReplaceGo pat repl rest.length rest) = _
  by_cases hc : (startsWithB pat (c :: rest) && !pat.isEmpty) = true
  · rw [if_pos hc, if_pos hc]
    have hp := pat_length_pos_of_cond hc
    congr 1
    apply listReplaceGo_congr
    · rw [List.length_drop, List.length_cons]; omega
    · exact Nat.le_refl _
  · rw [if_neg hc, if_neg hc]
    rfl

lemma listReplace_of_not_part (pat repl : List Char) :
    ∀ s, containsB pat s = false → listReplace pat repl s = s := by
  intro s
  induction s with
  | nil => intro _; rfl
  | cons c rest ih =>
    intro h
    rw [containsB, Bool.or_eq_false_iff] at h
    rw [listReplace_cons, if_neg (by simp [h.1]), ih h.2]

lemma listReplace_head (pat repl : List Char) (hne : pat ≠ []) (t : List Char) :
    listReplace pat repl (pat ++ t) = repl ++ listReplace pat repl t := by
  rcases pat with _ | ⟨p, ps⟩
  · exact absurd rfl hne
  · rw [List.cons_append, listReplace_cons, if_pos]
    · congr 1
      rw [← List.cons_append, List.drop_left]
    · have h1 : startsWithB (p :: ps) (p :: (ps ++ t)) = true := by
        rw [← List.cons_append, startsWithB_iff]
        exact ⟨t, rfl⟩
      simp [h1]

/-- A pattern has no border when no proper non-empty final segment of it is
also one of its initial segments; leftmost matching then cannot produce a
match spanning the boundary of an already-located occurrence. -/
def noBorder (pat : List Char) : Prop :=
  ∀ i, i < pat.length → 0 < i → pat.drop i ≠ pat.take (pat.length - i)

lemma start_no_span (pat : List Char) (hnb : noBorder pat) (c : Char) (a' t : List Char)
    (hsw : startsWithB pat (c :: a') = false) :
    startsWithB pat (c :: (a' ++ (pat ++ t))) = false := by
  by_contra h
  rw [Bool.not_eq_false, startsWithB_iff] at h
  obtain ⟨w, hw⟩ := h
  rw [← List.cons_append] at hw
  rcases le_or_lt pat.length (c :: a').length with hn | hn
  · have hsw' : startsWithB pat (c :: a') = true := by
      rw [startsWithB_iff]
      have htake := congrArg (List.take pat.length) hw
      rw [List.take_append_of_le_length hn, List.take_left] at htake
      refine ⟨(c :: a').drop pat.length, ?_⟩
      conv_lhs => rw [← List.take_append_drop pat.length (c :: a')]
      rw [htake]
    rw [hsw] at hsw'
    exact Bool.noConfusion hsw'
  · have hdrop := congrArg (List.drop (c :: a').length) hw
    rw [List.drop_left, List.drop_append_of_le_length (Nat.le_of_lt hn)] at hdrop
    have htake2 := congrArg (List.take (pat.drop (c :: a').length).length) hdrop
    rw [List.take_left, List.take_append_of_le_length (by rw [List.length_drop]; exact Nat.sub_le _ _)] at htake2
    rw [List.length_drop] at htake2
    exact hnb (c :: a').length hn (by simp) htake2.symm

lemma listReplace_seg (pat repl : List Char) (hnb : noBorder pat) (hne : pat ≠ []) :
    ∀ a t, containsB pat a = false →
      listReplace pat repl (a ++ (pat ++ t)) = a ++ (repl ++ listReplace pat repl t) := by
  intro a
  induction a with
  | nil => intro t _; simpa using listReplace_head pat repl hne t
  | cons c a' ih =>
    intro t hcont
    rw [containsB, Bool.or_eq_false_iff] at hcont
    rw [List.cons_append, listReplace_cons,
      if_neg (by rw [start_no_span pat hnb c a' t hcont.1]; simp),
      ih t hcont.2, ← List.cons_append]

/-- The zero-width-space artifact replaced by `clean_markdown` (src/main.rs line 90). -/
def zwsp : List Char := "&amp;#x200B;".data

lemma zwsp_ne_nil : zwsp ≠ [] := by decide

lemma zwsp_noBorder : noBorder zwsp := by unfold noBorder; decide

/-- Embeds `fn clean_markdown` (src/main.rs lines 89-91):
`str.replace("&amp;#x200B;", "\n")`. -/
def clean_markdown (s : List Char) : List Char := listReplace zwsp ['\n'] s

/-- Embeds `fn quote` (src/main.rs lines 46-50): prepend a marker character
and then run `s.replace("\n", "\n>")` on the whole prefixed string. -/
def quote (s : List Char) : List Char :=
  listReplace ['\n'] ('\n' :: '>' :: []) ('>' :: s)

/-- Specialised form of the newline replacement done by `quote`: insert one
marker after every newline character. -/
def repNL : List Char → List Char
  | [] => []
  | c :: rest => if c = '\n' then '\n' :: '>' :: repNL rest else c :: repNL rest

lemma listReplace_nl_eq : ∀ s, listReplace ['\n'] ('\n' :: '>' :: []) s = repNL s := by
  intro s
  induction s with
  | nil => rfl
  | cons c rest ih =>
    rw [listReplace_cons, repNL]
    by_cases hc : c = '\n'
    · subst hc
      rw [if_pos (by rw [startsWithB]; simp [startsWithB]), if_pos rfl]
      simp only [List.length_cons, List.length_nil, List.drop_succ_cons, List.drop_zero]
      rw [ih]
      rfl
    · rw [if_neg (by simp [startsWithB]; intro h; exact absurd h.symm hc), if_neg hc, ih]

lemma quote_eq (s : List Char) : quote s = '>' :: repNL s := by
  rw [quote, listReplace_cons,
    if_neg (by simp [startsWithB]),
    listReplace_nl_eq]

lemma repNL_append : ∀ a b, repNL (a ++ b) = repNL a ++ repNL b := by
  intro a b
  induction a with
  | nil => rfl
  | cons c rest ih =>
    rw [List.cons_append, repNL, repNL]
    by_cases hc : c = '\n'
    · rw [if_pos hc, if_pos hc, ih]
      rfl
    · rw [if_neg hc, if_neg hc, ih]
      rfl

/-- Lines of a character list, splitting at every newline: a string with
k-1 newline characters has exactly k lines. -/
def lines : List Char → List (List Char)
  | [] => [[]]
  | c :: rest =>
    if c = '\n' then [] :: lines rest
    else (c :: (lines rest).headI) :: (lines rest).tail

lemma lines_ne_nil : ∀ s, lines s ≠ [] := by
  intro s
  cases s with
  | nil => simp [lines]
  | cons c rest =>
    rw [lines]
    by_cases hc : c = '\n'
    · rw [if_pos hc]; simp
    · rw [if_neg hc]; simp

lemma lines_destruct (s : List Char) : lines s = (lines s).headI :: (lines s).tail := by
  cases h : lines s with
  | nil => exact absurd h (lines_ne_nil s)
  | cons a t => rfl

lemma lines_repNL : ∀ s, lines (repNL s) =
    (lines s).headI :: ((lines s).tail.map (fun l => '>' :: l)) := by
  intro s
  induction s with
  | nil => rfl
  | cons c rest ih =>
    by_cases hc : c = '\n'
    · subst hc
      rw [repNL, if_pos rfl]
      rw [show lines ('\n' :: '>' :: repNL rest) = [] :: lines ('>' :: repNL rest) from by
        rw [lines, if_pos rfl]]
      rw [show lines ('>' :: repNL rest) =
          ('>' :: (lines (repNL rest)).headI) :: (lines (repNL rest)).tail from by
        rw [lines, if_neg (by decide)]]
      rw [show lines ('\n' :: rest) = [] :: lines rest from by rw [lines, if_pos rfl]]
      rw [ih]
      simp only [List.headI, List.tail]
      rw [lines_destruct rest]
      simp
    · rw [repNL, if_neg hc]
      rw [show lines (c :: repNL rest) =
          (c :: (lines (repNL rest)).headI) :: (lines (repNL rest)).tail from by
        rw [lines, if_neg hc]]
      rw [show lines (c :: rest) = (c :: (lines rest).headI) :: (lines rest).tail from by
        rw [lines, if_neg hc]]
      rw [ih]
      simp

lemma lines_quote (s : List Char) :
    lines (quote s) = (lines s).map (fun l => '>' :: l) := by
  rw [quote_eq]
  rw [show lines ('>' :: repNL s) =
      ('>' :: (lines (repNL s)).headI) :: (lines (repNL s)).tail from by
    rw [lines, if_neg (by decide)]]
  rw [lines_repNL]
  cases h : lines s with
  | nil => exact absurd h (lines_ne_nil s)
  | cons a t => simp

lemma lines_length_count : ∀ s : List Char, (lines s).length = s.count '\n' + 1 := by
  intro s
  induction s with
  | nil => rfl
  | cons c rest ih =>
    rw [lines]
    by_cases hc : c = '\n'
    · subst hc
      rw [if_pos rfl]
      simp [List.count_cons, ih]
    · rw [if_neg hc]
      have : (rest.count '\n' : Nat) = (c :: rest).count '\n' := by
        simp [List.count_cons, hc]
      simp only [List.length_cons]
      rw [lines_destruct rest] at ih
      simp only [List.length_cons] at ih
      omega

/-- A character list ending in the quote marker. -/
def endsGt (l : List Char) : Prop := ∃ t, l = t ++ ('>' :: [])

/-- A character list ending in a newline. -/
def endsNl (l : List Char) : Prop := ∃ t, l = t ++ ('\n' :: [])

lemma endsGt_append (a b : List Char) (h : endsGt b) : endsGt (a ++ b) := by
  obtain ⟨t, rfl⟩ := h
  exact ⟨a ++ t, by rw [List.append_assoc]⟩

lemma repNL_endsGt {l : List Char} (h : endsGt l) : endsGt (repNL l) := by
  obtain ⟨t, rfl⟩ := h
  rw [repNL_append]
  exact ⟨repNL t, by simp [repNL]⟩

lemma quote_endsGt_of_endsNl {l : List Char} (h : endsNl l) : endsGt (quote l) := by
  obtain ⟨t, rfl⟩ := h
  rw [quote_eq, repNL_append]
  exact ⟨'>' :: (repNL t ++ ('\n' :: [])), by simp [repNL]⟩

lemma quote_endsGt_of_endsGt {l : List Char} (h : endsGt l) : endsGt (quote l) := by
  rw [quote_eq]
  obtain ⟨t, ht⟩ := repNL_endsGt h
  exact ⟨'>' :: t, by rw [ht]; rfl⟩

mutual
/-- The comment node received from the remote source (roux
`SubredditCommentsData`), restricted to the three fields the program
reads: optional author, optional body, optional replies.  The listing
wrappers around the children (`replies.data.children`, each child's
`.data`) carry nothing the program uses and are flattened away. -/
inductive SubredditCommentsData : Type where
  | mk (author : Option (List Char)) (body : Option (List Char))
       (replies : Option SubredditReplies)
/-- The replies field: either a listing of child comments or the sentinel
string the API uses to mean no further replies. -/
inductive SubredditReplies : Type where
  | Reply (children : List SubredditCommentsData)
  | Str (s : List Char)
end

/-- The text pushed for an authored comment before its replies
(src/main.rs lines 53-59): the blank-line separator, the bold author
marker, the body and a final newline. -/
def commentHeader (author b : List Char) : List Char :=
  "\n\n** ".data ++ (author ++ (" -- **\n".data ++ (b ++ ('\n' :: []))))

lemma commentHeader_endsNl (author b : List Char) : endsNl (commentHeader author b) := by
  exact ⟨"\n\n** ".data ++ (author ++ (" -- **\n".data ++ b)), by simp [commentHeader]⟩

mutual
/-- Embeds `fn parse_comment` (src/main.rs lines 52-71).  A missing author
leaves the output at the blank separator; an authored comment unwraps its
body — the unwrap panic on a missing body is modelled by `none` — then
walks a `Reply` list recursively at depth+1; the whole block is passed
through `quote` once. -/
def parse_comment (comment : SubredditCommentsData) (depth : Nat) : Option (List Char) :=
  match comment with
  | .mk none _ _ => some (quote ('\n' :: '\n' :: []))
  | .mk (some _) none _ => none
  | .mk (some author) (some b) replies =>
    match replies with
    | some (.Reply children) =>
      match parse_comments children (depth + 1) with
      | none => none
      | some reps => some (quote (commentHeader author b ++ reps))
    | some (.Str _) => some (quote (commentHeader author b))
    | none => some (quote (commentHeader author b))
/-- The loop of src/main.rs lines 62-65: render each child in order and
concatenate, propagating the body-unwrap panic. -/
def parse_comments (children : List SubredditCommentsData) (depth : Nat) : Option (List Char) :=
  match children with
  | [] => some []
  | c :: rest =>
    match parse_comment c depth with
    | none => none
    | some r =>
      match parse_comments rest depth with
      | none => none
      | some rs => some (r ++ rs)
end

/-- Per-child renderings of a reply list, in source order. -/
def parse_comment_list : List SubredditCommentsData → Nat → Option (List (List Char))
  | [], _ => some []
  | c :: rest, d =>
    match parse_comment c d with
    | none => none
    | some r =>
      match parse_comment_list rest d with
      | none => none
      | some rs => some (r :: rs)

lemma parse_comments_eq (cs : List SubredditCommentsData) (d : Nat) :
    parse_comments cs d = (parse_comment_list cs d).map (fun rs => rs.flatten) := by
  induction cs with
  | nil => rfl
  | cons c rest ih =>
    rw [parse_comments, parse_comment_list]
    cases parse_comment c d with
    | none => rfl
    | some r =>
      rw [ih]
      cases parse_comment_list rest d with
      | none => rfl
      | some rs => simp

mutual
/-- Every successfully rendered comment ends with the quote marker: its
block either ends with a newline (so `quote` appends a trailing marker) or
with the last child's already marker-terminated output. -/
theorem parse_comment_endsGt (c : SubredditCommentsData) (d : Nat) (s : List Char)
    (h : parse_comment c d = some s) : endsGt s := by
  match c with
  | .mk none x y =>
    rw [parse_comment] at h
    injection h with h'
    subst h'
    exact quote_endsGt_of_endsNl ⟨'\n' :: [], rfl⟩
  | .mk (some a) none r =>
    rw [parse_comment] at h
    exact Option.noConfusion h
  | .mk (some a) (some b) (some (.Reply children)) =>
    rw [parse_comment] at h
    cases hk : parse_comments children (d + 1) with
    | none => rw [hk] at h; exact Option.noConfusion h
    | some reps =>
      rw [hk] at h
      injection h with h'
      subst h'
      rcases parse_comments_endsGt children (d + 1) reps hk with hnil | hgt
      · subst hnil
        rw [List.append_nil]
        exact quote_endsGt_of_endsNl (commentHeader_endsNl a b)
      · exact quote_endsGt_of_endsGt (endsGt_append _ _ hgt)
  | .mk (some a) (some b) (some (.Str x)) =>
    rw [parse_comment] at h
    injection h with h'
    subst h'
    exact quote_endsGt_of_endsNl (commentHeader_endsNl a b)
  | .mk (some a) (some b) none =>
    rw [parse_comment] at h
    injection h with h'
    subst h'
    exact quote_endsGt_of_endsNl (commentHeader_endsNl a b)
/-- A successfully rendered reply list is empty or ends with the marker. -/
theorem parse_comments_endsGt (cs : List SubredditCommentsData) (d : Nat) (s : List Char)
    (h : parse_comments cs d = some s) : s = [] ∨ endsGt s := by
  match cs with
  | [] =>
    rw [parse_comments] at h
    injection h with h'
    exact Or.inl h'.symm
  | c :: rest =>
    rw [parse_comments] at h
    cases hc : parse_comment c d with
    | none => rw [hc] at h; exact Option.noConfusion h
    | some r =>
      rw [hc] at h
      cases hr : parse_comments rest d with
      | none => rw [hr] at h; exact Option.noConfusion h
      | some rs =>
        rw [hr] at h
        injection h with h'
        subst h'
        rcases parse_comments_endsGt rest d rs hr with hnil | hgt
        · subst hnil
          rw [List.append_nil]
          exact Or.inr (parse_comment_endsGt c d r hc)
        · exact Or.inr (endsGt_append r rs hgt)
end

lemma parse_comment_list_endsGt (cs : List SubredditCommentsData) (d : Nat)
    (rs : List (List Char)) (h : parse_comment_list cs d = some rs) :
    ∀ r ∈ rs, endsGt r := by
  induction cs generalizing rs with
  | nil =>
    rw [parse_comment_list] at h
    injection h with h'
    subst h'
    intro r hr
    exact absurd hr (by simp)
  | cons c rest ih =>
    rw [parse_comment_list] at h
    cases hc : parse_comment c d with
    | none => rw [hc] at h; exact Option.noConfusion h
    | some r =>
      rw [hc] at h
      cases hr : parse_comment_list rest d with
      | none => rw [hr] at h; exact Option.noConfusion h
      | some rs' =>
        rw [hr] at h
        injection h with h'
        subst h'
        intro x hx
        rcases List.mem_cons.mp hx with rfl | hx'
        · exact parse_comment_endsGt c d x hc
        · exact ih rs' hr x hx'

lemma repNL_flatten : ∀ rs : List (List Char),
    repNL rs.flatten = (rs.map repNL).flatten := by
  intro rs
  induction rs with
  | nil => rfl
  | cons x rest ih => simp [repNL_append, ih]

lemma endsGt_cons (c : Char) {l : List Char} (h : endsGt l) : endsGt (c :: l) := by
  obtain ⟨t, rfl⟩ := h
  exact ⟨c :: t, rfl⟩

lemma part_quote_of_mem (rs : List (List Char)) :
    ∀ (a b : List Char), endsGt a → (∀ x ∈ rs, endsGt x) →
      ∀ r ∈ rs, IsPart (quote r) (a ++ ((rs.map repNL).flatten ++ b)) := by
  induction rs with
  | nil => intro a b _ _ r hr; exact absurd hr (by simp)
  | cons x rest ih =>
    intro a b ha hall r hr
    rcases List.mem_cons.mp hr with rfl | hr'
    · obtain ⟨t, rfl⟩ := ha
      refine ⟨t, (rest.map repNL).flatten ++ b, ?_⟩
      rw [quote_eq]
      simp [List.append_assoc]
    · have ha' : endsGt ((a ++ repNL x)) :=
        endsGt_append a _ (repNL_endsGt (hall x (by simp)))
      have hres := ih (a ++ repNL x) b ha' (fun y hy => hall y (by simp [hy])) r hr'
      have heq : a ++ (((x :: rest).map repNL).flatten ++ b)
          = (a ++ repNL x) ++ ((rest.map repNL).flatten ++ b) := by
        simp [List.append_assoc]
      rw [heq]
      exact hres

/-- C5: `quote` maps a k-line input to a k-line output whose lines are the
input lines, each carrying exactly one extra leading quote marker; the
line count of the input is its newline count plus one, and `quote` is a
total transformation with no error outcome. -/
theorem claim_C5_quote_lines (s : List Char) :
    lines (quote s) = (lines s).map (fun l => '>' :: l)
    ∧ (lines s).length = s.count '\n' + 1
    ∧ (lines (quote s)).length = (lines s).length := by
  refine ⟨lines_quote s, lines_length_count s, ?_⟩
  rw [lines_quote]
  simp

/-- C1 counterexample: for a comment with no author, `parse_comment` does
not return the quote of the empty string (it returns the quote of the
two-newline separator instead). -/
theorem claim_C1_counterexample :
    parse_comment (.mk none (some ('H' :: 'i' :: [])) none) 0 ≠ some (quote []) := by
  decide

/-- C1 amended: for every comment whose author field is absent,
`parse_comment` returns exactly one application of `quote` to the
two-newline separator string — concretely the five characters
greater-newline-greater-newline-greater — regardless of the body field,
the replies field, and the depth argument. -/
theorem claim_C1_no_author (body : Option (List Char))
    (replies : Option SubredditReplies) (d : Nat) :
    parse_comment (.mk none body replies) d = some (quote ('\n' :: '\n' :: []))
    ∧ quote ('\n' :: '\n' :: []) = '>' :: '\n' :: '>' :: '\n' :: '>' :: [] :=
  ⟨by rw [parse_comment], by decide⟩

/-- C2: an authored comment whose body field is absent renders to `none`
(the embedding of the body-unwrap panic aborting the run): no substitute
value is produced and no normal rendering is returned, and the failure
propagates through a reply list containing such a comment. -/
theorem claim_C2_missing_body (author : List Char)
    (replies : Option SubredditReplies) (d : Nat)
    (rest : List SubredditCommentsData) :
    parse_comment (.mk (some author) none replies) d = none
    ∧ parse_comments (.mk (some author) none replies :: rest) d = none := by
  constructor
  · rw [parse_comment]
  · rw [parse_comments, parse_comment]

/-- C6: for an authored comment whose replies are a reply list, the output
is `quote` of the header followed by the concatenated child renderings in
source order; each child rendering, with exactly one additional quote
marker on every line (that is, `quote` of the child rendering), occurs
contiguously inside the parent output; a sentinel-string or absent
replies field contributes nothing. -/
theorem claim_C6_children_nested (author b : List Char)
    (children : List SubredditCommentsData) (d : Nat) (rs : List (List Char))
    (h : parse_comment_list children (d + 1) = some rs) :
    parse_comment (.mk (some author) (some b) (some (.Reply children))) d
        = some (quote (commentHeader author b ++ rs.flatten))
    ∧ (∀ r ∈ rs, IsPart (quote r) (quote (commentHeader author b ++ rs.flatten))
        ∧ lines (quote r) = (lines r).map (fun l => '>' :: l))
    ∧ (∀ x, parse_comment (.mk (some author) (some b) (some (.Str x))) d
        = some (quote (commentHeader author b)))
    ∧ parse_comment (.mk (some author) (some b) none) d
        = some (quote (commentHeader author b)) := by
  refine ⟨?_, ?_, fun x => by rw [parse_comment], by rw [parse_comment]⟩
  · rw [parse_comment, parse_comments_eq, h]
    rfl
  · intro r hr
    refine ⟨?_, lines_quote r⟩
    have hsplit : quote (commentHeader author b ++ rs.flatten)
        = ('>' :: repNL (commentHeader author b)) ++ ((rs.map repNL).flatten ++ []) := by
      rw [quote_eq, repNL_append, repNL_flatten]
      simp
    rw [hsplit]
    have hends : endsGt ('>' :: repNL (commentHeader author b)) := by
      have hq := quote_endsGt_of_endsNl (commentHeader_endsNl author b)
      rw [quote_eq] at hq
      exact hq
    exact part_quote_of_mem rs ('>' :: repNL (commentHeader author b)) []
      hends (parse_comment_list_endsGt children (d + 1) rs h) r hr

/-- C6 witness data: one child comment authored by bob. -/
def kidW : SubredditCommentsData :=
  .mk (some ('b' :: 'o' :: 'b' :: [])) (some ('Y' :: 'o' :: [])) none

/-- C6 witness data: the child rendering list. -/
def rsW : List (List Char) :=
  quote (commentHeader ('b' :: 'o' :: 'b' :: []) ('Y' :: 'o' :: [])) :: []

/-- C6 witness: the theorem instantiated at a concrete one-child comment. -/
theorem claim_C6_witness :
    parse_comment_list (kidW :: []) (0 + 1) = some rsW
    ∧ (parse_comment (.mk (some ('a' :: [])) (some ('h' :: [])) (some (.Reply (kidW :: [])))) 0
        = some (quote (commentHeader ('a' :: []) ('h' :: []) ++ rsW.flatten))
      ∧ (∀ r ∈ rsW, IsPart (quote r)
            (quote (commentHeader ('a' :: []) ('h' :: []) ++ rsW.flatten))
          ∧ lines (quote r) = (lines r).map (fun l => '>' :: l))
      ∧ (∀ x, parse_comment (.mk (some ('a' :: [])) (some ('h' :: [])) (some (.Str x))) 0
          = some (quote (commentHeader ('a' :: []) ('h' :: []))))
      ∧ parse_comment (.mk (some ('a' :: [])) (some ('h' :: [])) none) 0
          = some (quote (commentHeader ('a' :: []) ('h' :: [])))) :=
  ⟨rfl, claim_C6_children_nested ('a' :: []) ('h' :: []) (kidW :: []) 0 rsW rfl⟩

lemma parse_comment_shape (c : SubredditCommentsData) (d : Nat) (s : List Char)
    (h : parse_comment c d = some s) : ∃ blk, s = quote blk := by
  match c with
  | .mk none x y =>
    rw [parse_comment] at h
    injection h with h'
    exact ⟨_, h'.symm⟩
  | .mk (some a) none r =>
    rw [parse_comment] at h
    exact Option.noConfusion h
  | .mk (some a) (some b) (some (.Reply children)) =>
    rw [parse_comment] at h
    cases hk : parse_comments children (d + 1) with
    | none => rw [hk] at h; exact Option.noConfusion h
    | some reps =>
      rw [hk] at h
      injection h with h'
      exact ⟨_, h'.symm⟩
  | .mk (some a) (some b) (some (.Str x)) =>
    rw [parse_comment] at h
    injection h with h'
    exact ⟨_, h'.symm⟩
  | .mk (some a) (some b) none =>
    rw [parse_comment] at h
    injection h with h'
    exact ⟨_, h'.symm⟩

/-- C10: every successful rendering of a comment, at any depth, is a
non-empty string all of whose lines begin with a quote marker. -/
theorem claim_C10_all_quoted (c : SubredditCommentsData) (d : Nat) (s : List Char)
    (h : parse_comment c d = some s) :
    s ≠ [] ∧ ∀ l ∈ lines s, ∃ t, l = '>' :: t := by
  obtain ⟨blk, rfl⟩ := parse_comment_shape c d s h
  constructor
  · rw [quote_eq]
    simp
  · intro l hl
    rw [lines_quote] at hl
    obtain ⟨l', _, rfl⟩ := List.mem_map.mp hl
    exact ⟨l', rfl⟩

/-- C10 witness: the theorem instantiated at a concrete comment. -/
theorem claim_C10_witness :
    parse_comment (.mk none none none) 0 = some (quote ('\n' :: '\n' :: []))
    ∧ (quote ('\n' :: '\n' :: []) ≠ []
       ∧ ∀ l ∈ lines (quote ('\n' :: '\n' :: [])), ∃ t, l = '>' :: t) :=
  ⟨rfl, claim_C10_all_quoted (.mk none none none) 0 (quote ('\n' :: '\n' :: [])) rfl⟩

lemma intercalate_cons_cons (sep a b : List Char) (rest : List (List Char)) :
    List.intercalate sep (a :: b :: rest) = a ++ (sep ++ List.intercalate sep (b :: rest)) := by
  simp [List.intercalate, List.intersperse]

lemma clean_intercalate : ∀ segs : List (List Char),
    (∀ g ∈ segs, containsB zwsp g = false) →
    clean_markdown (List.intercalate zwsp segs) = List.intercalate ('\n' :: []) segs := by
  intro segs
  induction segs with
  | nil => intro _; rfl
  | cons a rest ih =>
    intro h
    cases rest with
    | nil =>
      rw [show List.intercalate zwsp (a :: []) = a from by simp [List.intercalate],
        show List.intercalate ('\n' :: []) (a :: []) = a from by simp [List.intercalate]]
      exact listReplace_of_not_part zwsp ('\n' :: []) a (h a (by simp))
    | cons b rest' =>
      rw [intercalate_cons_cons, intercalate_cons_cons, clean_markdown,
        listReplace_seg zwsp ('\n' :: []) zwsp_noBorder zwsp_ne_nil a
          (List.intercalate zwsp (b :: rest')) (h a (by simp))]
      have hrec := ih (fun g hg => h g (by simp [hg]))
      rw [clean_markdown] at hrec
      rw [hrec]

/-- C9: on a document decomposed into segments free of the
zero-width-space artifact, separated by occurrences of the artifact,
`clean_markdown` yields exactly the same segments separated by single
newline characters: every occurrence is replaced by one newline and no
other substring changes. -/
theorem claim_C9_cleanup (segs : List (List Char))
    (h : ∀ g ∈ segs, containsB zwsp g = false) :
    clean_markdown (List.intercalate zwsp segs) = List.intercalate ('\n' :: []) segs
    ∧ ∀ g ∈ segs, ¬ IsPart zwsp g :=
  ⟨clean_intercalate segs h, fun g hg => (containsB_false_iff g zwsp).mp (h g hg)⟩

/-- C9 witness: the theorem instantiated at the two segments ab and cd. -/
theorem claim_C9_witness :
    (∀ g ∈ (('a' :: 'b' :: []) :: ('c' :: 'd' :: []) :: [] : List (List Char)),
        containsB zwsp g = false)
    ∧ (clean_markdown (List.intercalate zwsp (('a' :: 'b' :: []) :: ('c' :: 'd' :: []) :: []))
        = List.intercalate ('\n' :: []) (('a' :: 'b' :: []) :: ('c' :: 'd' :: []) :: [])
      ∧ ∀ g ∈ (('a' :: 'b' :: []) :: ('c' :: 'd' :: []) :: [] : List (List Char)),
          ¬ IsPart zwsp g) :=
  ⟨by decide, claim_C9_cleanup (('a' :: 'b' :: []) :: ('c' :: 'd' :: []) :: []) (by decide)⟩

/-- A post as received from the remote listing (roux `SubmissionsData`),
restricted to the fields the program reads. -/
structure SubmissionsData where
  id : List Char
  title : List Char
  selftext : List Char

/-- Result of a finished external converter process. -/
structure CmdOutput where
  status : Int
  stdout : List Char
  stderr : List Char

/-- Opaque error value of the external roux client. -/
structure RouxError where
  code : Nat

/-- Opaque I/O error raised when the converter process cannot be started. -/
inductive IOErr where
  | ioError

/-- How a run of the program ends when it does not succeed: a propagated
roux error (the `?` operators in main and parse_post), or one of the four
process aborts — the body unwrap in parse_comment, the write expect, the
argument-tokenization expect, and the converter-run expect. -/
inductive RunError where
  | roux (e : RouxError)
  | abortMissingBody
  | abortWrite
  | abortConvertArgs
  | abortConvertRun

/-- Program options (struct `Opts`, src/main.rs lines 23-44), with the
command line already parsed.  `converter_args` is consumed only through
the shell_words tokenizer, whose outcome the environment supplies;
`verbose` only toggles diagnostic printing. -/
structure Opts where
  subreddit : List Char
  output : List Char
  posts : Nat
  ebook_convert : List Char
  converter_args : List Char
  verbose : Bool

/-- Results supplied by the world outside the repository: the post listing
fetch, the per-post comment-tree fetch, whether the file write succeeds,
the shell_words tokenization of `converter_args` (`none` models a parse
failure) and the converter spawn (`none` models a process that could not
be started; a started process yields a `CmdOutput` whatever its status). -/
structure Env where
  latest : Except RouxError (List SubmissionsData)
  fetchComments : List Char → Except RouxError (List SubredditCommentsData)
  writeOk : Bool
  splitArgs : Option (List (List Char))
  spawn : Option CmdOutput

/-- Embeds `fn parse_post` (src/main.rs lines 73-87): the title marker,
title, newline and body, then the fetched comment tree rendered at depth 0
in order; a fetch failure propagates, a body-unwrap panic aborts. -/
def parse_post (fetch : List Char → Except RouxError (List SubredditCommentsData))
    (post : SubmissionsData) : Except RunError (List Char) :=
  match fetch post.id with
  | .error e => .error (.roux e)
  | .ok comments =>
    match parse_comments comments 0 with
    | none => .error .abortMissingBody
    | some rendered => .ok ('#' :: (post.title ++ ('\n' :: (post.selftext ++ rendered))))

/-- The post loop of main (src/main.rs lines 131-133): sequential, first
failure aborts. -/
def renderPosts (fetch : List Char → Except RouxError (List SubredditCommentsData)) :
    List SubmissionsData → Except RunError (List Char)
  | [] => .ok []
  | p :: rest =>
    match parse_post fetch p with
    | .error e => .error e
    | .ok s =>
      match renderPosts fetch rest with
      | .error e => .error e
      | .ok t => .ok (s ++ t)

/-- The document header built in main (src/main.rs lines 120-127). -/
def headerFor (sub : List Char) : List Char :=
  "---\ntitle: /r/".data ++ (sub ++ "\n---\n\n".data)

/-- Index of the last dot of a file name, from Rust `Path` semantics. -/
def lastDotIdx (f : List Char) : Option Nat :=
  match f.reverse.findIdx? (fun c => c == '.') with
  | none => none
  | some j => some (f.length - 1 - j)

/-- Rust `Path::extension` for a path whose final component is a regular
non-empty file name (the shape of the output argument; a directory prefix
never affects extension logic): the part after the last dot, none when
there is no dot or the only dot is the leading character. -/
def extension (f : List Char) : Option (List Char) :=
  match lastDotIdx f with
  | none => none
  | some i => if i = 0 then none else some (f.drop (i + 1))

/-- Rust `Path::file_stem` under the same conditions as `extension`. -/
def file_stem (f : List Char) : List Char :=
  match lastDotIdx f with
  | none => f
  | some i => if i = 0 then f else f.take i

/-- Rust `Path::with_extension` under the same conditions: stem, dot, new
extension. -/
def withExtension (f e : List Char) : List Char := file_stem f ++ ('.' :: e)

/-- The md extension forced onto the intermediate output path. -/
def mdExt : List Char := 'm' :: 'd' :: []

/-- Embeds `fn write_markdown_file` (src/main.rs lines 93-98) as the write
event it produces: the target path and the cleaned document text. -/
def write_markdown_file (path : List Char) (doc : List Char) : List Char × List Char :=
  (path, clean_markdown doc)

/-- Embeds `fn run_ebook_converter` (src/main.rs lines 100-115) over the
environment-supplied tokenization and spawn results.  A tokenization
failure is the expect panic (`none`); a spawn failure is the propagated
io error; once the process has produced an output, the function returns
success without inspecting the exit status, which is only echoed in
verbose mode. -/
def run_ebook_converter (splitArgs : Option (List (List Char)))
    (spawn : Option CmdOutput) : Option (Except IOErr Unit) :=
  match splitArgs with
  | none => none
  | some _ =>
    match spawn with
    | none => some (.error .ioError)
    | some _ => some (.ok ())

/-- Observable outcome of one program run: the final result, the file
writes that happened, and whether the converter was spawned. -/
structure RunTrace where
  result : Except RunError Unit
  writes : List (List Char × List Char)
  converterRan : Bool

/-- Final stage of main (src/main.rs lines 135-142): write the document to
the output path with the extension forced to md, then run the converter
only when the requested output path's extension is not already md. -/
def mainFinish (opts : Opts) (env : Env) (doc : List Char) : RunTrace :=
  if env.writeOk then
    if extension opts.output ≠ some mdExt then
      match run_ebook_converter env.splitArgs env.spawn with
      | none => ⟨.error .abortConvertArgs,
          write_markdown_file (withExtension opts.output mdExt) doc :: [], false⟩
      | some (.error _) => ⟨.error .abortConvertRun,
          write_markdown_file (withExtension opts.output mdExt) doc :: [], true⟩
      | some (.ok _) => ⟨.ok (),
          write_markdown_file (withExtension opts.output mdExt) doc :: [], true⟩
    else ⟨.ok (), write_markdown_file (withExtension opts.output mdExt) doc :: [], false⟩
  else ⟨.error .abortWrite, [], false⟩

/-- Rendering stage of main: a failed post render aborts before any write. -/
def mainRender (opts : Opts) (env : Env) : Except RunError (List Char) → RunTrace
  | .error e => ⟨.error e, [], false⟩
  | .ok body => mainFinish opts env (headerFor opts.subreddit ++ body)

/-- Listing stage of main: a failed listing fetch aborts before any write. -/
def mainListing (opts : Opts) (env : Env) :
    Except RouxError (List SubmissionsData) → RunTrace
  | .error e => ⟨.error (.roux e), [], false⟩
  | .ok posts => mainRender opts env (renderPosts env.fetchComments posts)

/-- Embeds `fn main` (src/main.rs lines 117-144), staged as listing fetch,
sequential post rendering, write, optional conversion. -/
def mainRun (opts : Opts) (env : Env) : RunTrace :=
  mainListing opts env env.latest

/-- C3 counterexample data: converter exits with status 1. -/
def optsC3 : Opts :=
  ⟨'s' :: [], 'o' :: '.' :: 'e' :: 'p' :: 'u' :: 'b' :: [], 1, 'x' :: [], [], false⟩

/-- C3 counterexample data: everything succeeds except the converter
status, which is non-zero. -/
def envC3 : Env := ⟨.ok [], fun _ => .ok [], true, some [], some ⟨1, [], []⟩⟩

/-- C3 counterexample: with the converter process exiting with status 1,
`run_ebook_converter` reports success and the whole run succeeds — a
non-zero converter exit status is treated as success. -/
theorem claim_C3_counterexample :
    run_ebook_converter (some []) (some ⟨1, [], []⟩) = some (.ok ())
    ∧ envC3.spawn = some ⟨1, [], []⟩
    ∧ (mainRun optsC3 envC3).result = .ok ()
    ∧ (mainRun optsC3 envC3).converterRan = true :=
  ⟨rfl, rfl, rfl, rfl⟩

/-- C3 amended: a converter process that fails to start is a fatal error
(the propagated io error, turned into a process abort by the expect in
main), and a tokenization failure is a fatal abort before any spawn; but a
converter process that starts and returns — whatever its exit status,
zero or not — is treated as success, the status being only echoed in
verbose mode. -/
theorem claim_C3_amended :
    (∀ (args : List (List Char)) (out : CmdOutput),
        run_ebook_converter (some args) (some out) = some (.ok ()))
    ∧ (∀ args : List (List Char),
        run_ebook_converter (some args) none = some (.error .ioError))
    ∧ (∀ spawn : Option CmdOutput, run_ebook_converter none spawn = none) :=
  ⟨fun _ _ => rfl, fun _ => rfl, fun _ => rfl⟩

lemma renderPosts_fetch_fail
    (fetch : List Char → Except RouxError (List SubredditCommentsData))
    (p : SubmissionsData) (post : List SubmissionsData) (e : RouxError)
    (hf : fetch p.id = .error e) :
    ∀ pre : List SubmissionsData,
      (∀ q ∈ pre, ∃ s, parse_post fetch q = .ok s) →
      renderPosts fetch (pre ++ (p :: post)) = .error (.roux e) := by
  intro pre
  induction pre with
  | nil =>
    intro _
    rw [List.nil_append, renderPosts,
      show parse_post fetch p = .error (.roux e) from by rw [parse_post, hf]]
  | cons q pre' ih =>
    intro hpre
    rw [List.cons_append, renderPosts]
    obtain ⟨s, hs⟩ := hpre q (by simp)
    rw [hs, ih (fun x hx => hpre x (by simp [hx]))]

/-- C4: when the listing succeeds, every post before some post p renders
successfully, and the comment-tree fetch for p fails, the run writes no
file at all, never reaches the converter, and ends with the propagated
fetch error. -/
theorem claim_C4_fetch_abort (opts : Opts) (env : Env)
    (pre post : List SubmissionsData) (p : SubmissionsData) (e : RouxError)
    (hl : env.latest = .ok (pre ++ (p :: post)))
    (hpre : ∀ q ∈ pre, ∃ s, parse_post env.fetchComments q = .ok s)
    (hf : env.fetchComments p.id = .error e) :
    (mainRun opts env).writes = []
    ∧ (mainRun opts env).result = .error (.roux e)
    ∧ (mainRun opts env).converterRan = false := by
  have hrp := renderPosts_fetch_fail env.fetchComments p post e hf pre hpre
  simp only [mainRun]
  rw [hl]
  simp only [mainListing]
  rw [hrp]
  exact ⟨rfl, rfl, rfl⟩

/-- C4 witness data: first post, rendering fine. -/
def postA : SubmissionsData := ⟨'p' :: '1' :: [], 'T' :: [], 'B' :: []⟩

/-- C4 witness data: second post, whose comment fetch fails. -/
def postB : SubmissionsData := ⟨'p' :: '2' :: [], 'U' :: [], 'C' :: []⟩

/-- C4 witness data: options for the two-post run. -/
def optsC4 : Opts := ⟨'s' :: [], 'o' :: '.' :: 'm' :: 'd' :: [], 2, 'x' :: [], [], false⟩

/-- C4 witness data: environment in which only the second post's comment
fetch fails. -/
def envC4 : Env :=
  ⟨.ok (postA :: postB :: []),
   fun i => if i = 'p' :: '2' :: [] then .error ⟨7⟩ else .ok [],
   true, some [], some ⟨0, [], []⟩⟩

/-- C4 witness: the theorem instantiated at the two-post run whose second
comment fetch fails. -/
theorem claim_C4_witness :
    envC4.latest = .ok (postA :: (postB :: []))
    ∧ envC4.fetchComments postB.id = .error ⟨7⟩
    ∧ ((mainRun optsC4 envC4).writes = []
      ∧ (mainRun optsC4 envC4).result = .error (.roux ⟨7⟩)
      ∧ (mainRun optsC4 envC4).converterRan = false) :=
  ⟨rfl, rfl,
    claim_C4_fetch_abort optsC4 envC4 (postA :: []) [] postB ⟨7⟩ rfl
      (fun q hq => by
        rw [List.mem_singleton] at hq
        subst hq
        exact ⟨_, rfl⟩)
      rfl⟩

/-- C7: on every successful run from a regular output file name, exactly
one write happens, to the output path with its extension forced to md,
and the converter ran exactly when the requested output path's extension
was not already md. -/
lemma mainFinish_spec (opts : Opts) (env : Env) (doc : List Char)
    (h : (mainFinish opts env doc).result = .ok ()) :
    (mainFinish opts env doc).writes
        = (withExtension opts.output mdExt, clean_markdown doc) :: []
    ∧ ((mainFinish opts env doc).converterRan = true
        ↔ extension opts.output ≠ some mdExt) := by
  rw [mainFinish] at h ⊢
  by_cases hwk : env.writeOk = true
  · rw [if_pos hwk] at h ⊢
    by_cases hext : extension opts.output ≠ some mdExt
    · rw [if_pos hext] at h ⊢
      cases hcv : run_ebook_converter env.splitArgs env.spawn with
      | none =>
        rw [hcv] at h
        simp at h
      | some r =>
        cases r with
        | error e =>
          rw [hcv] at h
          simp at h
        | ok u =>
          exact ⟨rfl, by simp [hext]⟩
    · rw [if_neg hext] at h ⊢
      rw [not_not] at hext
      exact ⟨rfl, by simp [hext]⟩
  · rw [if_neg hwk] at h
    simp at h

theorem claim_C7_write_convert (opts : Opts) (env : Env)
    (hres : (mainRun opts env).result = .ok ()) (_hout : opts.output ≠ []) :
    (∃ content, (mainRun opts env).writes
        = (withExtension opts.output mdExt, content) :: [])
    ∧ ((mainRun opts env).converterRan = true
        ↔ extension opts.output ≠ some mdExt) := by
  simp only [mainRun] at hres ⊢
  cases hlat : env.latest with
  | error e =>
    rw [hlat] at hres
    simp [mainListing] at hres
  | ok posts =>
    rw [hlat] at hres
    simp only [mainListing] at hres ⊢
    cases hrp : renderPosts env.fetchComments posts with
    | error e =>
      rw [hrp] at hres
      simp [mainRender] at hres
    | ok body =>
      rw [hrp] at hres
      simp only [mainRender] at hres ⊢
      obtain ⟨hw, hiff⟩ := mainFinish_spec opts env (headerFor opts.subreddit ++ body) hres
      exact ⟨⟨clean_markdown (headerFor opts.subreddit ++ body), hw⟩, hiff⟩

/-- C7 witness data: options asking for an md output. -/
def optsC7 : Opts := ⟨'s' :: [], 'o' :: '.' :: 'm' :: 'd' :: [], 1, 'x' :: [], [], false⟩

/-- C7 witness data: an environment in which everything succeeds. -/
def envC7 : Env := ⟨.ok [], fun _ => .ok [], true, some [], some ⟨0, [], []⟩⟩

/-- C7 witness: the theorem instantiated at a concrete successful run. -/
theorem claim_C7_witness :
    (mainRun optsC7 envC7).result = .ok ()
    ∧ optsC7.output ≠ []
    ∧ ((∃ content, (mainRun optsC7 envC7).writes
          = (withExtension optsC7.output mdExt, content) :: [])
      ∧ ((mainRun optsC7 envC7).converterRan = true
          ↔ extension optsC7.output ≠ some mdExt)) :=
  ⟨rfl, by decide, claim_C7_write_convert optsC7 envC7 rfl (by decide)⟩

/-- C8 scenario data: subreddit test, output path out.md. -/
def optsC8 : Opts :=
  ⟨'t' :: 'e' :: 's' :: 't' :: [], 'o' :: 'u' :: 't' :: '.' :: 'm' :: 'd' :: [],
   1, 'x' :: [], [], false⟩

/-- C8 scenario data: one post titled Hello with body World. -/
def postC8 : SubmissionsData :=
  ⟨'p' :: '1' :: [], 'H' :: 'e' :: 'l' :: 'l' :: 'o' :: [],
   'W' :: 'o' :: 'r' :: 'l' :: 'd' :: []⟩

/-- C8 scenario data: one top-level comment by alice saying Hi, no replies. -/
def aliceC8 : SubredditCommentsData :=
  .mk (some ('a' :: 'l' :: 'i' :: 'c' :: 'e' :: [])) (some ('H' :: 'i' :: [])) none

/-- C8 scenario data: the environment delivering that post and comment. -/
def envC8 : Env :=
  ⟨.ok (postC8 :: []), fun _ => .ok (aliceC8 :: []), true, some [], some ⟨0, [], []⟩⟩

/-- C8: the document the scenario actually assembles. -/
def docC8 : List Char :=
  "---\ntitle: /r/test\n---\n\n#Hello\nWorld>\n>\n>** alice -- **\n>Hi\n>".data

/-- C8 counterexample: the scenario writes exactly `docC8`, and the text
greater-space-hash-Hello never occurs in it — the document is not the
header block followed by a quoted title block, because the post title is
not quoted at all. -/
theorem claim_C8_counterexample :
    (mainRun optsC8 envC8).writes
      = (('o' :: 'u' :: 't' :: '.' :: 'm' :: 'd' :: []), docC8) :: []
    ∧ ¬ IsPart ('>' :: ' ' :: '#' :: 'H' :: 'e' :: 'l' :: 'l' :: 'o' :: []) docC8 := by
  refine ⟨rfl, ?_⟩
  rw [← containsB_false_iff]
  rfl

/-- C8 amended: the scenario's run succeeds, writes once to out.md the
document consisting of the header block, then the unquoted post block
hash-Hello-newline-World, then the quoted comment block (containing the
alice marker line and Hi, every line behind one quote marker), and the
converter is not invoked since the requested path already ends in md. -/
theorem claim_C8_amended :
    mainRun optsC8 envC8
      = ⟨.ok (), (('o' :: 'u' :: 't' :: '.' :: 'm' :: 'd' :: []), docC8) :: [], false⟩
    ∧ docC8 = headerFor ('t' :: 'e' :: 's' :: 't' :: [])
        ++ (('#' :: ('H' :: 'e' :: 'l' :: 'l' :: 'o' :: []))
          ++ ('\n' :: (('W' :: 'o' :: 'r' :: 'l' :: 'd' :: [])
            ++ quote (commentHeader ('a' :: 'l' :: 'i' :: 'c' :: 'e' :: [])
                ('H' :: 'i' :: [])))))
    ∧ quote (commentHeader ('a' :: 'l' :: 'i' :: 'c' :: 'e' :: []) ('H' :: 'i' :: []))
        = ">\n>\n>** alice -- **\n>Hi\n>".data :=
  ⟨rfl, rfl, rfl⟩
